import Mathlib

/-!
Verification of the text-to-speech bot pipeline (`src/main.py`).

Text is modelled as `List Char`.  Python string operations used by the
source (`str.strip()`, `str.split()` with no argument, and
`re.split` with a capturing separator class) are embedded faithfully.
-/

namespace TTSBot

/-- Configuration constant `MAX_CHUNK_LENGTH = 180` from `src/main.py`. -/
def MAX_CHUNK_LENGTH : Nat := 180

/-- Configuration constant `MAX_TEXT_LENGTH = 100000` from `src/main.py`. -/
def MAX_TEXT_LENGTH : Nat := 100000

/-- Configuration constant `TELEGRAM_MAX_AUDIO_SIZE_MB = 50` from `src/main.py`. -/
def TELEGRAM_MAX_AUDIO_SIZE_MB : Nat := 50

/-- The sentence-separator class of `re.split(r'([.!?।॥\n]+)', text)`. -/
def isSepChar (c : Char) : Bool :=
  c = '.' || c = '!' || c = '?' || c = '।' || c = '॥' || c = '\n'

/-- ASCII whitespace as recognised by Python `str.strip()` / `str.split()`:
space, tab, newline, carriage return, vertical tab, form feed. -/
def isPySpace (c : Char) : Bool :=
  c = ' ' || c = '\t' || c = '\n' || c = '\r' || c = '\x0b' || c = '\x0c'

/-- Python `str.strip()`: remove leading and trailing whitespace. -/
def pyStrip (cs : List Char) : List Char :=
  ((cs.dropWhile isPySpace).reverse.dropWhile isPySpace).reverse

/-- Helper for `pySplit`, accumulating the current word in reverse. -/
def pySplitAux : List Char → List Char → List (List Char)
  | [], acc => if acc = [] then [] else [acc.reverse]
  | c :: cs, acc =>
    if isPySpace c then
      (if acc = [] then [] else [acc.reverse]) ++ pySplitAux cs []
    else
      pySplitAux cs (c :: acc)

/-- Python `str.split()` with no argument: split on runs of whitespace,
dropping empty pieces. -/
def pySplit (cs : List Char) : List (List Char) :=
  pySplitAux cs []

/-- Scanner for `reSplitParts`.  `inSep` records whether the run being
collected (in `acc`, reversed) is a separator run; runs are emitted
maximal, so the output alternates text piece / separator piece and both
starts and ends with a (possibly empty) text piece. -/
def reSplitAux : List Char → Bool → List Char → List (List Char)
  | [], inSep, acc => if inSep then [acc.reverse, []] else [acc.reverse]
  | c :: cs, inSep, acc =>
    if inSep then
      if isSepChar c then reSplitAux cs true (c :: acc)
      else acc.reverse :: reSplitAux cs false [c]
    else
      if isSepChar c then acc.reverse :: reSplitAux cs true [c]
      else reSplitAux cs false (c :: acc)

/-- `re.split(r'([.!?।॥\n]+)', text)`: the alternating list
`[text₀, sep₁, text₁, sep₂, …, textₙ]` where each `sepᵢ` is a maximal
nonempty run of separator characters.  `text₀` and `textₙ` may be empty. -/
def reSplitParts (cs : List Char) : List (List Char) :=
  reSplitAux cs false []

/-- The pairing loop `for i in range(0, len(sentences), 2)` of
`split_text_into_chunks`: each iteration forms
`combined = sentences[i] + sentences[i+1]` (the final separator being
`""` when absent). -/
def combinedPieces : List (List Char) → List (List Char)
  | [] => []
  | [t] => [t]
  | t :: s :: rest => (t ++ s) :: combinedPieces rest

/-- State of the chunk-building loop: emitted `chunks` and `current_chunk`. -/
structure ChunkState where
  chunks : List (List Char)
  current : List Char
deriving Repr

/-- One iteration of the inner word-packing loop (`for word in words`)
of `split_text_into_chunks`; state is `(chunks, temp_chunk)`. -/
def packWordsStep (maxLength : Nat) (st : List (List Char) × List Char)
    (word : List Char) : List (List Char) × List Char :=
  if st.2.length + word.length + 1 ≤ maxLength then
    (st.1, st.2 ++ (if st.2 = [] then [] else [' ']) ++ word)
  else
    ((if st.2 = [] then st.1 else st.1 ++ [pyStrip st.2]), word)

/-- One iteration of the outer loop of `split_text_into_chunks`,
processing one `combined = sentence + separator` piece. -/
def chunkStep (maxLength : Nat) (st : ChunkState) (combined : List Char) :
    ChunkState :=
  if st.current.length + combined.length ≤ maxLength then
    { st with current := st.current ++ combined }
  else
    let chunks1 := if st.current = [] then st.chunks
      else st.chunks ++ [pyStrip st.current]
    if maxLength < combined.length then
      let r := (pySplit combined).foldl (packWordsStep maxLength) (chunks1, [])
      ⟨r.1, r.2⟩
    else
      ⟨chunks1, combined⟩

/-- `split_text_into_chunks(text, max_length)` from `src/main.py`. -/
def split_text_into_chunks (text : List Char) (maxLength : Nat) :
    List (List Char) :=
  if text.length ≤ maxLength then [text]
  else
    let pieces := combinedPieces (reSplitParts text)
    let final := pieces.foldl (chunkStep maxLength) ⟨[], []⟩
    let chunks := if final.current = [] then final.chunks
      else final.chunks ++ [pyStrip final.current]
    chunks.filter (fun c => !c.isEmpty)

/-! ## Effect-trace model of the conversion pipeline

The orchestration functions of `src/main.py` (`convert_text_to_speech`,
`_convert_single_chunk`, `_convert_multiple_chunks`, `_safe_edit_message`)
perform Telegram and filesystem side effects.  They are embedded as
functions from an oracle (the behaviour of the external collaborators:
synthesis success, edit-call outcomes, final file size, delivery success)
to the ordered list of effects performed. -/

/-- The distinct status texts passed to `bot.send_message` /
`bot.edit_message_text`, with the data interpolated into each f-string. -/
inductive MsgText where
  | initial (total : Nat)
  | progress (done total : Nat)
  | combining
  | applyingSpeed (speed : ℚ)
  | convertingFormat
  | tooLarge (sizeMB limitMB : ℚ)
  | processingError
  | tooLong (limit actual : Nat)
deriving DecidableEq

/-- Outcome of one underlying `bot.edit_message_text` protocol call:
success, a "message is not modified" rejection, or any other error. -/
inductive EditOutcome where
  | ok
  | notModified
  | otherError
deriving DecidableEq

/-- One observable effect of the pipeline. -/
inductive Event where
  | sendMessage (t : MsgText)
  | editCall (t : MsgText)
  | logWarning
  | chatAction
  | createTemp (id : Nat)
  | synthesize (idx : Nat)
  | removeTemp (id : Nat)
  | deleteMessage
  | sendVoice
deriving DecidableEq

/-- `_safe_edit_message` from `src/main.py`: always performs the
underlying `bot.edit_message_text` call; a raised error whose text
contains "message is not modified" is swallowed silently, any other
error is swallowed after a warning log.  Nothing is ever re-raised. -/
def safe_edit (edit : MsgText → EditOutcome) (t : MsgText) : List Event :=
  Event.editCall t ::
    (match edit t with
     | EditOutcome.otherError => [Event.logWarning]
     | _ => [])

/-- External-collaborator behaviour for one `_convert_multiple_chunks`
job: whether synthesis of the i-th chunk raises, the outcome of each
edit call (keyed by the edited text, which is distinct per call in one
job), the measured size of the exported file, and whether
`bot.send_voice` raises.  `sizeMB` is
`file_size_mb = os.path.getsize(final_filename) / (1024 * 1024)`:
exact as a rational, since dividing an integer byte count below 2⁵³ by
the power of two 2²⁰ is exact in binary floating point. -/
structure MultiOracle where
  synthFails : Nat → Bool
  edit : MsgText → EditOutcome
  sizeMB : ℚ
  sendVoiceFails : Bool

/-- The per-chunk loop `for i, chunk in enumerate(chunks, 1)` of
`_convert_multiple_chunks`.  Per chunk: a (best-effort) recording chat
action, the cadenced progress edit when `i % 5 == 0 or i == total`, a
temp-file creation, and the synthesis attempt.  Returns the events, the
number of temp files created, and whether the loop completed without a
synthesis error.  The progress edit happens before the chunk's
synthesis. -/
def chunkLoop (o : MultiOracle) (total : Nat) :
    Nat → List (List Char) → List Event × Nat × Bool
  | _, [] => ([], 0, true)
  | i, _chunk :: rest =>
    let pre := Event.chatAction ::
      ((if i % 5 = 0 ∨ i = total then
          safe_edit o.edit (MsgText.progress i total) else [])
        ++ [Event.createTemp (i - 1), Event.synthesize i])
    if o.synthFails i then (pre, 1, false)
    else
      let r := chunkLoop o total (i + 1) rest
      (pre ++ r.1, r.2.1 + 1, r.2.2)

/-- `_convert_multiple_chunks` from `src/main.py`.  The `try` body runs
the chunk loop, then the combining / speed / format stage edits, exports
the final file (one more temp file), checks the size ceiling (returning
early with a too-large notice), else deletes the progress message
(best-effort) and sends the voice file.  Any raised error reaches the
`except` handler which edits the progress message to a failure notice.
The `finally` block removes every temp file recorded so far.  An empty
chunk list raises `IndexError` at `audio_segments[0]` (after the
combining edit), landing in the `except` handler. -/
def convert_multiple_chunks (o : MultiOracle) (chunks : List (List Char))
    (speed : ℚ) : List Event :=
  let total := chunks.length
  let r := chunkLoop o total 1 chunks
  let loopEvs := r.1
  let nTemps := r.2.1
  let ok := r.2.2
  let tryEvs :=
    if ok then
      if nTemps = 0 then
        loopEvs ++ safe_edit o.edit MsgText.combining
          ++ safe_edit o.edit MsgText.processingError
      else
        loopEvs ++ safe_edit o.edit MsgText.combining
          ++ (if speed ≠ 1 then
                safe_edit o.edit (MsgText.applyingSpeed speed) else [])
          ++ safe_edit o.edit MsgText.convertingFormat
          ++ [Event.createTemp nTemps]
          ++ (if o.sizeMB > (TELEGRAM_MAX_AUDIO_SIZE_MB : ℚ) then
                safe_edit o.edit (MsgText.tooLarge o.sizeMB
                  (TELEGRAM_MAX_AUDIO_SIZE_MB : ℚ))
              else
                [Event.deleteMessage, Event.sendVoice]
                  ++ (if o.sendVoiceFails then
                        safe_edit o.edit MsgText.processingError else []))
    else
      loopEvs ++ safe_edit o.edit MsgText.processingError
  let totalTemps := if ok = true ∧ nTemps ≠ 0 then nTemps + 1 else nTemps
  Event.sendMessage (MsgText.initial total) ::
    (tryEvs ++ (List.range totalTemps).map Event.removeTemp)

/-- External-collaborator behaviour for one `_convert_single_chunk`
job.  `sizeMB` is the size the final artifact would measure; the
single-chunk code path never consults it (it performs no size check). -/
structure SingleOracle where
  synthFails : Bool
  sizeMB : ℚ
  sendVoiceFails : Bool

/-- `_convert_single_chunk` from `src/main.py`: recording chat action,
one temp mp3, the synthesis attempt, then (on success) the exported ogg
temp and the voice delivery — with no size measurement and no size
ceiling check.  The `finally` block removes the recorded temp files on
every exit path. -/
def convert_single_chunk (o : SingleOracle) (_text : List Char)
    (_speed : ℚ) : List Event :=
  Event.chatAction ::
    (if o.synthFails then
      [Event.createTemp 0, Event.synthesize 1, Event.removeTemp 0]
    else
      [Event.createTemp 0, Event.synthesize 1, Event.createTemp 1,
        Event.sendVoice]
        ++ (List.range 2).map Event.removeTemp)

/-- `convert_text_to_speech` from `src/main.py`: reject over-long text
with a message stating both the ceiling and the actual length, before
any chunking; otherwise chunk and dispatch on the number of chunks. -/
def convert_text_to_speech (mo : MultiOracle) (so : SingleOracle)
    (text : List Char) (speed : ℚ) : List Event :=
  if text.length > MAX_TEXT_LENGTH then
    [Event.sendMessage (MsgText.tooLong MAX_TEXT_LENGTH text.length)]
  else
    let chunks := split_text_into_chunks text MAX_CHUNK_LENGTH
    if chunks.length = 1 then convert_single_chunk so text speed
    else convert_multiple_chunks mo chunks speed

/-- Number of synthesis attempts recorded in a trace. -/
def synthCount (tr : List Event) : Nat :=
  (tr.filter (fun e => match e with
    | Event.synthesize _ => true
    | _ => false)).length

/-- Temp-file ids created in a trace, in order. -/
def createdIds (tr : List Event) : List Nat :=
  tr.filterMap (fun e => match e with
    | Event.createTemp i => some i
    | _ => none)

/-- Temp-file ids removed in a trace, in order. -/
def removedIds (tr : List Event) : List Nat :=
  tr.filterMap (fun e => match e with
    | Event.removeTemp i => some i
    | _ => none)

/-- Occurrences of one event in a trace. -/
def countEvent (e : Event) (tr : List Event) : Nat :=
  (tr.filter (fun x => x = e)).length

/-! ## Document decoding (`handle_document`) -/

/-- One byte of an uploaded document. -/
abbrev Byte := Fin 256

/-- Strict UTF-8 decoding of one leading byte plus continuations, as
`bytes.decode('utf-8')` performs it: rejects stray continuation bytes,
overlong encodings, surrogate code points and code points above
`0x10FFFF`. -/
def utf8Decode : List Byte → Option (List Char)
  | [] => some []
  | b :: bs =>
    let n := b.val
    if n < 0x80 then
      (utf8Decode bs).map (fun t => Char.ofNat n :: t)
    else if n < 0xC2 then none
    else if n < 0xE0 then
      match bs with
      | b1 :: bs1 =>
        if 0x80 ≤ b1.val ∧ b1.val < 0xC0 then
          (utf8Decode bs1).map
            (fun t => Char.ofNat ((n - 0xC0) * 64 + (b1.val - 0x80)) :: t)
        else none
      | [] => none
    else if n < 0xF0 then
      match bs with
      | b1 :: b2 :: bs2 =>
        if (0x80 ≤ b1.val ∧ b1.val < 0xC0) ∧ (0x80 ≤ b2.val ∧ b2.val < 0xC0) then
          let cp := (n - 0xE0) * 4096 + (b1.val - 0x80) * 64 + (b2.val - 0x80)
          if cp < 0x800 ∨ (0xD800 ≤ cp ∧ cp < 0xE000) then none
          else (utf8Decode bs2).map (fun t => Char.ofNat cp :: t)
        else none
      | _ => none
    else if n < 0xF5 then
      match bs with
      | b1 :: b2 :: b3 :: bs3 =>
        if (0x80 ≤ b1.val ∧ b1.val < 0xC0) ∧ (0x80 ≤ b2.val ∧ b2.val < 0xC0)
            ∧ (0x80 ≤ b3.val ∧ b3.val < 0xC0) then
          let cp := (n - 0xF0) * 262144 + (b1.val - 0x80) * 4096
            + (b2.val - 0x80) * 64 + (b3.val - 0x80)
          if cp < 0x10000 ∨ 0x110000 ≤ cp then none
          else (utf8Decode bs3).map (fun t => Char.ofNat cp :: t)
        else none
      | _ => none
    else none

/-- Latin-1 decoding of one byte, as `bytes.decode('latin-1')` performs
it: every byte value 0–255 maps to the code point of the same value, so
no byte is ever rejected. -/
def latin1DecodeByte (b : Byte) : Option Char :=
  some (Char.ofNat b.val)

/-- `downloaded_file.decode('latin-1')` applied to a whole byte string:
fails only if some byte fails to decode. -/
def latin1Decode (bs : List Byte) : Option (List Char) :=
  bs.mapM latin1DecodeByte

/-- Result of the two-stage decode in `handle_document`. -/
inductive DecodeOutcome where
  | decoded (text : List Char)
  | unreadable
deriving DecidableEq

/-- The two-stage decode of `handle_document` (`src/main.py` lines
321–328): try UTF-8; on `UnicodeDecodeError` try latin-1; if that also
fails, reply that the file could not be read. -/
def document_decode (bs : List Byte) : DecodeOutcome :=
  match utf8Decode bs with
  | some t => DecodeOutcome.decoded t
  | none =>
    match latin1Decode bs with
    | some t => DecodeOutcome.decoded t
    | none => DecodeOutcome.unreadable

/-! ## Derived predicates and concrete oracles used in the statements -/

/-- The chunk guarantee of the chunker contract: a chunk is nonempty,
and fits the limit unless it is a single whitespace-free word. -/
def goodChunk (maxLength : Nat) (c : List Char) : Bool :=
  !c.isEmpty && (decide (c.length ≤ maxLength) || c.all (fun x => !isPySpace x))

/-- Erase all (Python) whitespace, keeping the sequence of
non-whitespace characters. -/
def dropWs (cs : List Char) : List Char :=
  cs.filter (fun c => !isPySpace c)

/-- Invariant carried by every emitted chunk and by the pending
`current_chunk` / `temp_chunk` strings: either the string fits the
limit, or it is a single whitespace-free word. -/
def GoodChunkP (maxLength : Nat) (c : List Char) : Prop :=
  c.length ≤ maxLength ∨ ∀ x ∈ c, isPySpace x = false

/-- Concatenate chunks, re-inserting a single boundary whitespace
between consecutive chunks. -/
def joinWithSpace : List (List Char) → List Char
  | [] => []
  | [c] => c
  | c :: rest => c ++ [' '] ++ joinWithSpace rest

/-- Does an event report the too-large rejection to the user? -/
def isTooLargeEdit : Event → Bool
  | Event.editCall (MsgText.tooLarge _ _) => true
  | _ => false

/-- Collaborators all succeed; final artifact measures 0 MB. -/
def oracleOk : MultiOracle :=
  ⟨fun _ => false, fun _ => EditOutcome.ok, 0, false⟩

/-- Collaborators all succeed; final artifact measures 60 MB. -/
def oracleOversize : MultiOracle :=
  ⟨fun _ => false, fun _ => EditOutcome.ok, 60, false⟩

/-- Single-chunk job: collaborators succeed, artifact measures 60 MB. -/
def singleOversize : SingleOracle := ⟨false, 60, false⟩

/-- Single-chunk job: collaborators succeed, artifact measures 0 MB. -/
def singleOk : SingleOracle := ⟨false, 0, false⟩

/-! ## Lemmas about the Python string primitives -/

theorem mem_pyStrip_subset {c : List Char} {x : Char} (hx : x ∈ pyStrip c) :
    x ∈ c := by
  unfold pyStrip at hx
  rw [List.mem_reverse] at hx
  have h1 := (List.dropWhile_sublist (l := (c.dropWhile isPySpace).reverse)
    isPySpace).subset hx
  rw [List.mem_reverse] at h1
  exact (List.dropWhile_sublist isPySpace).subset h1

theorem pyStrip_length_le (c : List Char) :
    (pyStrip c).length ≤ c.length := by
  unfold pyStrip
  have h1 : ((c.dropWhile isPySpace).reverse.dropWhile isPySpace).length
      ≤ (c.dropWhile isPySpace).reverse.length :=
    (List.dropWhile_sublist _).length_le
  have h2 : (c.dropWhile isPySpace).length ≤ c.length :=
    (List.dropWhile_sublist _).length_le
  simp only [List.length_reverse] at h1 ⊢
  exact le_trans h1 h2

theorem goodChunkP_pyStrip {m : Nat} {c : List Char}
    (h : GoodChunkP m c) : GoodChunkP m (pyStrip c) := by
  rcases h with h | h
  · exact Or.inl (le_trans (pyStrip_length_le c) h)
  · exact Or.inr fun x hx => h x (mem_pyStrip_subset hx)

/-- Every word produced by `pySplitAux` is whitespace-free, provided the
accumulator only holds non-whitespace characters. -/
theorem pySplitAux_no_space :
    ∀ (cs acc : List Char), (∀ x ∈ acc, isPySpace x = false) →
      ∀ w ∈ pySplitAux cs acc, ∀ x ∈ w, isPySpace x = false := by
  intro cs
  induction cs with
  | nil =>
    intro acc hacc w hw x hx
    by_cases h : acc = []
    · simp [pySplitAux, h] at hw
    · simp only [pySplitAux, if_neg h] at hw
      simp only [List.mem_singleton] at hw
      subst hw
      exact hacc x (List.mem_reverse.mp hx)
  | cons c cs ih =>
    intro acc hacc w hw x hx
    by_cases hsp : isPySpace c = true
    · simp only [pySplitAux, hsp, if_pos] at hw
      rw [List.mem_append] at hw
      rcases hw with hw | hw
      · by_cases h : acc = []
        · simp [h] at hw
        · rw [if_neg h, List.mem_singleton] at hw
          subst hw
          exact hacc x (List.mem_reverse.mp hx)
      · exact ih [] (by simp) w hw x hx
    · simp only [pySplitAux, hsp, if_neg, Bool.false_eq_true,
        not_false_iff] at hw
      refine ih (c :: acc) ?_ w hw x hx
      intro y hy
      rcases List.mem_cons.mp hy with hy | hy
      · subst hy; simpa using hsp
      · exact hacc y hy

theorem pySplit_no_space (cs : List Char) :
    ∀ w ∈ pySplit cs, ∀ x ∈ w, isPySpace x = false :=
  pySplitAux_no_space cs [] (by simp)

/-! ## Chunk-invariant lemmas -/

/-- The word-packing loop preserves the chunk invariant: all emitted
chunks and the pending `temp_chunk` stay `GoodChunkP`. -/
theorem packWords_good (m : Nat) :
    ∀ (ws : List (List Char)) (st : List (List Char) × List Char),
      (∀ c ∈ st.1, GoodChunkP m c) → GoodChunkP m st.2 →
      (∀ w ∈ ws, ∀ x ∈ w, isPySpace x = false) →
      (∀ c ∈ (ws.foldl (packWordsStep m) st).1, GoodChunkP m c) ∧
        GoodChunkP m (ws.foldl (packWordsStep m) st).2 := by
  intro ws
  induction ws with
  | nil => intro st h1 h2 _; exact ⟨h1, h2⟩
  | cons w ws ih =>
    intro st h1 h2 hws
    rw [List.foldl_cons]
    have hw : ∀ x ∈ w, isPySpace x = false := hws w (by simp)
    have hws' : ∀ v ∈ ws, ∀ x ∈ v, isPySpace x = false :=
      fun v hv => hws v (by simp [hv])
    refine ih (packWordsStep m st w) ?_ ?_ hws'
    · unfold packWordsStep
      by_cases hfit : st.2.length + w.length + 1 ≤ m
      · rw [if_pos hfit]; exact h1
      · rw [if_neg hfit]
        by_cases hemp : st.2 = []
        · rw [if_pos hemp]; exact h1
        · rw [if_neg hemp]
          intro c hc
          rcases List.mem_append.mp hc with hc | hc
          · exact h1 c hc
          · rw [List.mem_singleton] at hc
            subst hc
            exact goodChunkP_pyStrip h2
    · unfold packWordsStep
      by_cases hfit : st.2.length + w.length + 1 ≤ m
      · rw [if_pos hfit]
        left
        have hpad : (if st.2 = [] then ([] : List Char) else [' ']).length ≤ 1 := by
          by_cases hemp : st.2 = [] <;> simp [hemp]
        rw [List.length_append, List.length_append]
        omega
      · rw [if_neg hfit]
        exact Or.inr hw

/-- One outer-loop step preserves the chunk invariant. -/
theorem chunkStep_good (m : Nat) (st : ChunkState) (combined : List Char)
    (h1 : ∀ c ∈ st.chunks, GoodChunkP m c) (h2 : GoodChunkP m st.current) :
    (∀ c ∈ (chunkStep m st combined).chunks, GoodChunkP m c) ∧
      GoodChunkP m (chunkStep m st combined).current := by
  unfold chunkStep
  by_cases hfit : st.current.length + combined.length ≤ m
  · rw [if_pos hfit]
    exact ⟨h1, Or.inl (by simpa using hfit)⟩
  · rw [if_neg hfit]
    have hchunks1 : ∀ c ∈ (if st.current = [] then st.chunks
        else st.chunks ++ [pyStrip st.current]), GoodChunkP m c := by
      by_cases hemp : st.current = []
      · rw [if_pos hemp]; exact h1
      · rw [if_neg hemp]
        intro c hc
        rcases List.mem_append.mp hc with hc | hc
        · exact h1 c hc
        · rw [List.mem_singleton] at hc
          subst hc
          exact goodChunkP_pyStrip h2
    by_cases hlong : m < combined.length
    · rw [if_pos hlong]
      exact packWords_good m (pySplit combined) (_, [])
        hchunks1 (Or.inl (by simp)) (pySplit_no_space combined)
    · rw [if_neg hlong]
      exact ⟨hchunks1, Or.inl (by simpa using Nat.le_of_not_lt hlong)⟩

/-- The whole outer loop preserves the chunk invariant. -/
theorem foldl_chunkStep_good (m : Nat) :
    ∀ (pieces : List (List Char)) (st : ChunkState),
      (∀ c ∈ st.chunks, GoodChunkP m c) → GoodChunkP m st.current →
      (∀ c ∈ (pieces.foldl (chunkStep m) st).chunks, GoodChunkP m c) ∧
        GoodChunkP m (pieces.foldl (chunkStep m) st).current := by
  intro pieces
  induction pieces with
  | nil => intro st h1 h2; exact ⟨h1, h2⟩
  | cons p ps ih =>
    intro st h1 h2
    rw [List.foldl_cons]
    have h := chunkStep_good m st p h1 h2
    exact ih (chunkStep m st p) h.1 h.2

theorem goodChunkP_toBool {m : Nat} {c : List Char} (h : GoodChunkP m c) :
    (decide (c.length ≤ m) || c.all (fun x => !isPySpace x)) = true := by
  rcases h with h | h
  · simp [h]
  · refine Bool.or_eq_true _ _ |>.mpr (Or.inr ?_)
    rw [List.all_eq_true]
    intro x hx
    simp [h x hx]

/-! ## Claim C1 -/

/-- C1, counterexample: the claim says every chunk returned by the
chunker is non-empty, for every input text and positive limit.  But the
short-input path (`src/main.py` line 36–37) returns `[text]` verbatim,
so the empty input text yields the single empty chunk `""` (limit 180,
the configured `MAX_CHUNK_LENGTH`). -/
theorem c1_counterexample :
    split_text_into_chunks [] 180 = [[]] ∧
      ([] : List Char) ∈ split_text_into_chunks [] 180 := by
  decide

/-- C1, amended: for every NON-EMPTY input text and every positive
chunk limit, every chunk returned by `split_text_into_chunks` is
non-empty, and every chunk's length is at most the limit except when
the chunk is a single whitespace-free word that alone exceeds the
limit. -/
theorem c1_amended (text : List Char) (maxLength : Nat)
    (_hpos : 0 < maxLength) (hne : text ≠ []) :
    (split_text_into_chunks text maxLength).all (goodChunk maxLength) = true := by
  rw [List.all_eq_true]
  intro c hc
  unfold split_text_into_chunks at hc
  by_cases hlen : text.length ≤ maxLength
  · rw [if_pos hlen] at hc
    rw [List.mem_singleton] at hc
    subst hc
    simp [goodChunk, List.isEmpty_iff, hne, hlen]
  · rw [if_neg hlen] at hc
    simp only [List.mem_filter] at hc
    obtain ⟨hmem, hnemp⟩ := hc
    have hinv := foldl_chunkStep_good maxLength
      (combinedPieces (reSplitParts text)) ⟨[], []⟩ (by simp)
      (Or.inl (by simp))
    have hgood : GoodChunkP maxLength c := by
      by_cases hemp : ((combinedPieces (reSplitParts text)).foldl
          (chunkStep maxLength) ⟨[], []⟩).current = []
      · rw [if_pos hemp] at hmem
        exact hinv.1 c hmem
      · rw [if_neg hemp] at hmem
        rcases List.mem_append.mp hmem with h | h
        · exact hinv.1 c h
        · rw [List.mem_singleton] at h
          subst h
          exact goodChunkP_pyStrip hinv.2
    unfold goodChunk
    rw [hnemp]
    simp only [Bool.true_and]
    exact goodChunkP_toBool hgood

/-- C1, witness: the amended theorem applied to the concrete input
`"hi"` with limit 1 (a single word longer than the limit). -/
theorem c1_witness :
    (split_text_into_chunks ['h', 'i'] 1).all (goodChunk 1) = true :=
  c1_amended ['h', 'i'] 1 (by decide) (by decide)

/-! ## Claim C3 -/

/-- C3, counterexample: for the input `" a "` (length 3 ≤ 180, the
configured limit) the chunker returns exactly one chunk, but that chunk
is the input verbatim — not the input with leading and trailing
whitespace trimmed, as the claim states: line 37 of `src/main.py`
returns `[text]` without calling `strip()`. -/
theorem c3_counterexample :
    split_text_into_chunks [' ', 'a', ' '] 180 = [[' ', 'a', ' ']] ∧
      pyStrip [' ', 'a', ' '] ≠ [' ', 'a', ' '] := by
  decide

/-- C3, amended: for every input text whose length is at most the chunk
limit, the chunker returns exactly one chunk, and that chunk equals the
input text verbatim (no whitespace trimming happens on this path). -/
theorem c3_amended (text : List Char) (maxLength : Nat)
    (hlen : text.length ≤ maxLength) :
    split_text_into_chunks text maxLength = [text] := by
  unfold split_text_into_chunks
  rw [if_pos hlen]

/-- C3, witness: the amended theorem at the concrete input `" a "`,
limit 180. -/
theorem c3_witness :
    split_text_into_chunks [' ', 'a', ' '] 180 = [[' ', 'a', ' ']] :=
  c3_amended [' ', 'a', ' '] 180 (by decide)

/-! ## Claim C7 -/

/-- C7, confirmed: for every input text longer than the configured total
ceiling (`MAX_TEXT_LENGTH = 100000`), for every collaborator behaviour
and speed, `convert_text_to_speech` produces exactly one user-facing
message carrying both the ceiling and the text's actual length, performs
no synthesis call and creates no temp file (so no chunking output is
ever consumed and no resource is acquired). -/
theorem c7_theorem (mo : MultiOracle) (so : SingleOracle)
    (text : List Char) (speed : ℚ) (h : text.length > MAX_TEXT_LENGTH) :
    convert_text_to_speech mo so text speed =
      [Event.sendMessage (MsgText.tooLong MAX_TEXT_LENGTH text.length)] ∧
    synthCount (convert_text_to_speech mo so text speed) = 0 ∧
    createdIds (convert_text_to_speech mo so text speed) = [] := by
  have heq : convert_text_to_speech mo so text speed =
      [Event.sendMessage (MsgText.tooLong MAX_TEXT_LENGTH text.length)] := by
    unfold convert_text_to_speech
    rw [if_pos h]
  refine ⟨heq, ?_, ?_⟩ <;> rw [heq] <;> rfl

/-- C7, witness: a 100001-character text is rejected with the limit and
the actual length in the message. -/
theorem c7_witness :
    convert_text_to_speech oracleOk singleOk (List.replicate 100001 'a') 1 =
      [Event.sendMessage (MsgText.tooLong MAX_TEXT_LENGTH 100001)] := by
  have h := (c7_theorem oracleOk singleOk (List.replicate 100001 'a') 1
    (by rw [List.length_replicate]; norm_num [MAX_TEXT_LENGTH])).1
  rw [List.length_replicate] at h
  exact h

/-! ## Claim C10 -/

/-- Latin-1 decoding succeeds on every byte string: each of the 256 byte
values decodes to the code point of the same value. -/
theorem latin1Decode_total (bs : List Byte) :
    latin1Decode bs = some (bs.map fun b => Char.ofNat b.val) := by
  unfold latin1Decode latin1DecodeByte
  induction bs with
  | nil => rfl
  | cons b bs ih => simp only [List.mapM_cons, ih, List.map_cons]; rfl

/-- C10, confirmed: the two-stage decode of `handle_document` (UTF-8,
then latin-1) succeeds on every possible byte sequence, because latin-1
decodes every byte value; the "couldn't read this file" branch is
unreachable. -/
theorem c10_theorem (bs : List Byte) :
    document_decode bs ≠ DecodeOutcome.unreadable := by
  unfold document_decode
  cases hu : utf8Decode bs with
  | some t => simp
  | none =>
    rw [latin1Decode_total bs]
    simp

/-! ## Claim C6 -/

/-- C6, counterexample: the claim says a repeated report with the same
text performs exactly one underlying message-edit call (none for the
second invocation).  But `_safe_edit_message` keeps no record of the
last displayed text: it always performs the `bot.edit_message_text`
protocol call, so two same-text invocations perform two calls (the
second one being rejected by the backend as "message is not modified"
and swallowed). -/
theorem c6_counterexample :
    countEvent (Event.editCall MsgText.combining)
      (safe_edit (fun _ => EditOutcome.ok) MsgText.combining ++
        safe_edit (fun _ => EditOutcome.notModified) MsgText.combining) = 2 := by
  decide

/-- C6, amended: invoking the reporter twice in a row with the same text
performs exactly two underlying message-edit calls.  When the first call
succeeds and the backend rejects the repeat as "message is not
modified", the rejection is swallowed silently — no warning is logged
and no error propagates — so the repetition is harmless, but it is not
suppressed before the protocol call. -/
theorem c6_amended (e1 e2 : MsgText → EditOutcome) (t : MsgText)
    (h1 : e1 t = EditOutcome.ok) (h2 : e2 t = EditOutcome.notModified) :
    safe_edit e1 t ++ safe_edit e2 t =
        [Event.editCall t, Event.editCall t] ∧
      countEvent (Event.editCall t) (safe_edit e1 t ++ safe_edit e2 t) = 2 := by
  have heq : safe_edit e1 t ++ safe_edit e2 t =
      [Event.editCall t, Event.editCall t] := by
    unfold safe_edit
    rw [h1, h2]
    rfl
  refine ⟨heq, ?_⟩
  rw [heq]
  simp [countEvent]

/-- C6, witness: the amended theorem at the concrete text "Combining
audio segments...", first call succeeding, second rejected as
not-modified. -/
theorem c6_witness :
    safe_edit (fun _ => EditOutcome.ok) MsgText.combining ++
        safe_edit (fun _ => EditOutcome.notModified) MsgText.combining =
        [Event.editCall MsgText.combining, Event.editCall MsgText.combining] ∧
      countEvent (Event.editCall MsgText.combining)
        (safe_edit (fun _ => EditOutcome.ok) MsgText.combining ++
          safe_edit (fun _ => EditOutcome.notModified) MsgText.combining) = 2 :=
  c6_amended _ _ MsgText.combining rfl rfl

/-! ## Claim C8 -/

/-- Scanning a separator-only remainder while inside a separator run
yields one separator piece holding everything, then the empty final
text piece. -/
theorem reSplitAux_all_sep (cs : List Char) :
    ∀ acc, (∀ c ∈ cs, isSepChar c = true) →
      reSplitAux cs true acc = [acc.reverse ++ cs, []] := by
  induction cs with
  | nil => intro acc _; simp [reSplitAux]
  | cons c cs ih =>
    intro acc hall
    have hc : isSepChar c = true := hall c (by simp)
    show (if isSepChar c then reSplitAux cs true (c :: acc)
      else acc.reverse :: reSplitAux cs false [c]) = _
    rw [if_pos hc]
    rw [ih (c :: acc) (fun x hx => hall x (by simp [hx]))]
    simp

/-- `re.split` on a nonempty separator-only text gives
`['', text, '']`. -/
theorem reSplitParts_all_sep (c : Char) (cs : List Char)
    (hall : ∀ x ∈ c :: cs, isSepChar x = true) :
    reSplitParts (c :: cs) = [[], c :: cs, []] := by
  have hc : isSepChar c = true := hall c (by simp)
  show (if isSepChar c then ([] : List Char).reverse :: reSplitAux cs true [c]
    else reSplitAux cs false (c :: [])) = _
  rw [if_pos hc]
  rw [reSplitAux_all_sep cs [c] (fun x hx => hall x (by simp [hx]))]
  simp

/-- `str.split()` of an all-whitespace string is empty. -/
theorem pySplit_all_space (cs : List Char)
    (hall : ∀ c ∈ cs, isPySpace c = true) : pySplit cs = [] := by
  show pySplitAux cs [] = []
  induction cs with
  | nil => rfl
  | cons c cs ih =>
    have hc : isPySpace c = true := hall c (by simp)
    show (if isPySpace c then
        (if ([] : List Char) = [] then [] else [([] : List Char).reverse])
          ++ pySplitAux cs []
      else pySplitAux cs [c]) = []
    rw [if_pos hc, if_pos rfl, List.nil_append]
    exact ih (fun x hx => hall x (by simp [hx]))

/-- C8, counterexample: the claim says a text consisting only of
sentence separators yields an empty list of chunks, but `"."` (length 1
≤ 180) is returned whole by the short-input path, and even above the
limit non-whitespace separator runs survive word-packing: the chunker
returns nonempty output for them. -/
theorem c8_counterexample :
    (['.'] : List Char).all isSepChar = true ∧
      split_text_into_chunks ['.'] 180 = [['.']] ∧
      (['.', '.', '.', '.'] : List Char).all isSepChar = true ∧
      split_text_into_chunks ['.', '.', '.', '.'] 3 = [['.', '.', '.', '.']] := by
  decide

/-- C8, amended: a text consisting only of paragraph-break (newline)
separators and longer than the chunk limit yields an empty list of
chunks.  (A separator-only text within the limit is returned verbatim
as one chunk, and over-limit runs of the non-whitespace separators
survive as chunks, so the original claim holds only for newline
separators beyond the limit.) -/
theorem c8_amended (text : List Char) (maxLength : Nat)
    (hnl : ∀ c ∈ text, c = '\n') (hlen : maxLength < text.length) :
    split_text_into_chunks text maxLength = [] := by
  rcases text with _ | ⟨c, cs⟩
  · simp at hlen
  · have hall : ∀ x ∈ c :: cs, isSepChar x = true := by
      intro x hx; rw [hnl x hx]; rfl
    have hallsp : ∀ x ∈ c :: cs, isPySpace x = true := by
      intro x hx; rw [hnl x hx]; rfl
    simp only [List.length_cons] at hlen
    have h1 : chunkStep maxLength ⟨[], []⟩ (c :: cs) = ⟨[], []⟩ := by
      unfold chunkStep
      rw [pySplit_all_space (c :: cs) hallsp]
      rw [if_neg (by simp only [List.length_nil, List.length_cons,
        Nat.zero_add, Nat.not_le]; omega)]
      simp only []
      rw [if_pos (show maxLength < (c :: cs).length by
        simp only [List.length_cons]; omega)]
      rfl
    have h2 : chunkStep maxLength ⟨[], []⟩ [] = ⟨[], []⟩ := by
      unfold chunkStep
      simp
    have hpieces : combinedPieces [[], c :: cs, []] = [c :: cs, []] := rfl
    unfold split_text_into_chunks
    rw [if_neg (by simp only [List.length_cons, Nat.not_le]; omega)]
    simp only [reSplitParts_all_sep c cs hall, hpieces, List.foldl_cons,
      h1, h2, List.foldl_nil]
    rfl

/-- C8, witness: the amended theorem at the concrete input `"\n\n"`,
limit 1. -/
theorem c8_witness : split_text_into_chunks ['\n', '\n'] 1 = [] :=
  c8_amended ['\n', '\n'] 1 (by decide) (by decide)

/-! ## Claim C2 -/

theorem dropWs_append (a b : List Char) :
    dropWs (a ++ b) = dropWs a ++ dropWs b :=
  List.filter_append a b

theorem dropWs_nil : dropWs [] = [] := rfl

theorem dropWs_single_space : dropWs [' '] = [] := rfl

theorem dropWs_joinWithSpace : ∀ (l : List (List Char)),
    dropWs (joinWithSpace l) = dropWs l.flatten := by
  intro l
  induction l with
  | nil => rfl
  | cons a l ih =>
    cases l with
    | nil => simp [joinWithSpace]
    | cons b l' =>
      show dropWs (a ++ [' '] ++ joinWithSpace (b :: l')) = _
      rw [dropWs_append, dropWs_append, ih]
      simp [dropWs_append, dropWs_single_space]

theorem pySplitAux_flatten : ∀ (cs acc : List Char),
    (pySplitAux cs acc).flatten = acc.reverse ++ dropWs cs := by
  intro cs
  induction cs with
  | nil =>
    intro acc
    by_cases h : acc = [] <;> simp [pySplitAux, h, dropWs]
  | cons c cs ih =>
    intro acc
    by_cases hsp : isPySpace c = true
    · have hd : dropWs (c :: cs) = dropWs cs := by simp [dropWs, hsp]
      by_cases h : acc = [] <;> simp [pySplitAux, hsp, h, ih, hd]
    · have hd : dropWs (c :: cs) = c :: dropWs cs := by simp [dropWs, hsp]
      simp [pySplitAux, hsp, ih, hd]

theorem pySplit_flatten (cs : List Char) :
    (pySplit cs).flatten = dropWs cs := by
  simpa using pySplitAux_flatten cs []

theorem dropWs_dropWhile (cs : List Char) :
    dropWs (cs.dropWhile isPySpace) = dropWs cs := by
  induction cs with
  | nil => rfl
  | cons c cs ih =>
    by_cases hsp : isPySpace c = true
    · rw [List.dropWhile_cons, if_pos hsp, ih]
      simp [dropWs, hsp]
    · rw [List.dropWhile_cons, if_neg (by simp [hsp])]

theorem dropWs_reverse (cs : List Char) :
    dropWs cs.reverse = (dropWs cs).reverse :=
  List.filter_reverse _ _

theorem dropWs_pyStrip (c : List Char) : dropWs (pyStrip c) = dropWs c := by
  unfold pyStrip
  rw [dropWs_reverse, dropWs_dropWhile, dropWs_reverse,
    List.reverse_reverse, dropWs_dropWhile]

theorem dropWs_idem (cs : List Char) : dropWs (dropWs cs) = dropWs cs := by
  unfold dropWs
  rw [List.filter_filter]
  simp only [Bool.and_self]

/-- One word-packing step only moves non-whitespace characters around:
the non-whitespace content of (emitted chunks ++ pending word buffer)
grows by exactly the word's non-whitespace content. -/
theorem packStep_dropWs (m : Nat) (st : List (List Char) × List Char)
    (w : List Char) :
    dropWs ((packWordsStep m st w).1.flatten ++ (packWordsStep m st w).2) =
      dropWs (st.1.flatten ++ st.2) ++ dropWs w := by
  unfold packWordsStep
  by_cases hfit : st.2.length + w.length + 1 ≤ m
  · rw [if_pos hfit]
    by_cases hemp : st.2 = [] <;>
      simp [hemp, dropWs_append, dropWs_single_space, ← List.append_assoc]
  · rw [if_neg hfit]
    by_cases hemp : st.2 = []
    · rw [if_pos hemp]
      simp [hemp, dropWs_append]
    · rw [if_neg hemp]
      simp [dropWs_append, dropWs_pyStrip]

theorem packWords_dropWs (m : Nat) : ∀ (ws : List (List Char))
    (st : List (List Char) × List Char),
    dropWs ((ws.foldl (packWordsStep m) st).1.flatten
        ++ (ws.foldl (packWordsStep m) st).2) =
      dropWs (st.1.flatten ++ st.2) ++ dropWs ws.flatten := by
  intro ws
  induction ws with
  | nil => intro st; simp [dropWs_nil]
  | cons w ws ih =>
    intro st
    rw [List.foldl_cons, ih (packWordsStep m st w), packStep_dropWs]
    simp [dropWs_append]

/-- One outer-loop step preserves the non-whitespace content:
(emitted chunks ++ current) grows by exactly the piece's
non-whitespace content. -/
theorem chunkStep_dropWs (m : Nat) (st : ChunkState) (combined : List Char) :
    dropWs ((chunkStep m st combined).chunks.flatten
        ++ (chunkStep m st combined).current) =
      dropWs (st.chunks.flatten ++ st.current) ++ dropWs combined := by
  unfold chunkStep
  by_cases hfit : st.current.length + combined.length ≤ m
  · rw [if_pos hfit]
    simp [dropWs_append, List.append_assoc]
  · rw [if_neg hfit]
    have hchunks1 : dropWs ((if st.current = [] then st.chunks
        else st.chunks ++ [pyStrip st.current]).flatten) =
        dropWs (st.chunks.flatten ++ st.current) := by
      by_cases hemp : st.current = []
      · rw [if_pos hemp]
        simp [hemp]
      · rw [if_neg hemp]
        simp [dropWs_append, dropWs_pyStrip]
    by_cases hlong : m < combined.length
    · rw [if_pos hlong]
      simp only []
      rw [packWords_dropWs m (pySplit combined) _]
      rw [pySplit_flatten, dropWs_idem]
      simp only [List.append_nil]
      rw [hchunks1]
    · rw [if_neg hlong]
      simp only []
      rw [dropWs_append, hchunks1]

theorem foldl_chunkStep_dropWs (m : Nat) : ∀ (pieces : List (List Char))
    (st : ChunkState),
    dropWs ((pieces.foldl (chunkStep m) st).chunks.flatten
        ++ (pieces.foldl (chunkStep m) st).current) =
      dropWs (st.chunks.flatten ++ st.current) ++ dropWs pieces.flatten := by
  intro pieces
  induction pieces with
  | nil => intro st; simp [dropWs_nil]
  | cons p ps ih =>
    intro st
    rw [List.foldl_cons, ih (chunkStep m st p), chunkStep_dropWs]
    simp [dropWs_append]

theorem reSplitAux_flatten (cs : List Char) :
    ∀ (inSep : Bool) (acc : List Char),
      (reSplitAux cs inSep acc).flatten = acc.reverse ++ cs := by
  induction cs with
  | nil =>
    intro inSep acc
    cases inSep <;> simp [reSplitAux]
  | cons c cs ih =>
    intro inSep acc
    cases inSep <;> by_cases hc : isSepChar c = true <;>
      simp [reSplitAux, hc, ih]

theorem reSplitParts_flatten (cs : List Char) :
    (reSplitParts cs).flatten = cs := by
  simpa using reSplitAux_flatten cs false []

theorem combinedPieces_flatten : ∀ (parts : List (List Char)),
    (combinedPieces parts).flatten = parts.flatten
  | [] => rfl
  | [_] => by simp [combinedPieces]
  | t :: s :: rest => by
    show ((t ++ s) :: combinedPieces rest).flatten = _
    rw [List.flatten_cons, combinedPieces_flatten rest]
    simp [List.append_assoc]

theorem flatten_filter_nonempty (l : List (List Char)) :
    (l.filter (fun c => !c.isEmpty)).flatten = l.flatten := by
  induction l with
  | nil => rfl
  | cons a l ih =>
    by_cases h : a.isEmpty
    · have ha : a = [] := List.isEmpty_iff.mp h
      simp [List.filter_cons, h, ih, ha]
    · simp [List.filter_cons, h, ih]

/-- C2, counterexample: the claim says concatenating all chunks with
single boundary whitespace re-inserted reproduces the input's word
sequence.  But a sentence separator strictly inside a whitespace-free
word makes the chunker split that word: for `"ab.cd efg"` with limit 4
the chunks are `["ab.", "cd", "efg"]`, whose word sequence is
`["ab.", "cd", "efg"]` while the input's is `["ab.cd", "efg"]`. -/
theorem c2_counterexample :
    pySplit (joinWithSpace
        (split_text_into_chunks "ab.cd efg".toList 4)) ≠
      pySplit "ab.cd efg".toList := by
  decide

/-- C2, amended: for every input text and limit, concatenating all
chunks (with single boundary whitespace re-inserted between chunks)
reproduces the original text's sequence of NON-WHITESPACE characters
exactly — word order and word content are preserved except that a word
containing a sentence separator in its interior may be split in two at
the separator. -/
theorem c2_amended (text : List Char) (maxLength : Nat) :
    dropWs (joinWithSpace (split_text_into_chunks text maxLength)) =
      dropWs text := by
  rw [dropWs_joinWithSpace]
  unfold split_text_into_chunks
  by_cases hlen : text.length ≤ maxLength
  · rw [if_pos hlen]
    simp
  · rw [if_neg hlen]
    simp only []
    rw [flatten_filter_nonempty]
    have hG := foldl_chunkStep_dropWs maxLength
      (combinedPieces (reSplitParts text)) ⟨[], []⟩
    simp only [combinedPieces_flatten, reSplitParts_flatten] at hG
    by_cases hemp : ((combinedPieces (reSplitParts text)).foldl
        (chunkStep maxLength) ⟨[], []⟩).current = []
    · rw [if_pos hemp]
      rw [hemp] at hG
      simpa using hG
    · rw [if_neg hemp]
      rw [List.flatten_append]
      simp only [List.flatten_cons, List.flatten_nil, List.append_nil]
      rw [dropWs_append, dropWs_pyStrip, ← dropWs_append]
      simpa using hG

/-! ## Trace-model lemmas -/

theorem safe_edit_mem {ed : MsgText → EditOutcome} {t : MsgText} {e : Event}
    (h : e ∈ safe_edit ed t) :
    e = Event.editCall t ∨ e = Event.logWarning := by
  unfold safe_edit at h
  rcases List.mem_cons.mp h with h | h
  · exact Or.inl h
  · right
    cases het : ed t <;> rw [het] at h <;> simp_all

theorem editCall_mem_safe_edit (ed : MsgText → EditOutcome) (t : MsgText) :
    Event.editCall t ∈ safe_edit ed t := by
  unfold safe_edit
  exact List.mem_cons_self _ _

theorem countEvent_append (e : Event) (a b : List Event) :
    countEvent e (a ++ b) = countEvent e a + countEvent e b := by
  unfold countEvent
  rw [List.filter_append, List.length_append]

theorem countEvent_cons (e x : Event) (tr : List Event) :
    countEvent e (x :: tr) = (if x = e then 1 else 0) + countEvent e tr := by
  unfold countEvent
  rw [List.filter_cons]
  by_cases h : x = e <;> simp [h, Nat.add_comm]

theorem countEvent_eq_zero {e : Event} {tr : List Event} (h : e ∉ tr) :
    countEvent e tr = 0 := by
  unfold countEvent
  rw [List.length_eq_zero, List.filter_eq_nil_iff]
  intro a ha
  simp only [decide_eq_true_eq]
  intro heq
  subst heq
  exact h ha

theorem countEvent_safe_edit_editCall (ed : MsgText → EditOutcome)
    (t t' : MsgText) :
    countEvent (Event.editCall t') (safe_edit ed t) =
      if t = t' then 1 else 0 := by
  unfold safe_edit countEvent
  cases ed t <;> by_cases h : t = t' <;> simp [h, List.filter]

theorem chunkLoop_ok (o : MultiOracle) (total : Nat)
    (hok : ∀ i, o.synthFails i = false) :
    ∀ (cs : List (List Char)) (strt : Nat),
      (chunkLoop o total strt cs).2.1 = cs.length ∧
        (chunkLoop o total strt cs).2.2 = true := by
  intro cs
  induction cs with
  | nil => intro strt; exact ⟨rfl, rfl⟩
  | cons c rest ih =>
    intro strt
    unfold chunkLoop
    rw [if_neg (by simp [hok strt])]
    simp only [List.length_cons]
    exact ⟨by rw [(ih (strt + 1)).1], (ih (strt + 1)).2⟩

/-- Every event the chunk loop can emit: chat actions, progress edits,
warning logs, temp creations, synthesis attempts. -/
theorem chunkLoop_mem (o : MultiOracle) (total : Nat) :
    ∀ (cs : List (List Char)) (strt : Nat) (e : Event),
      e ∈ (chunkLoop o total strt cs).1 →
      e = Event.chatAction ∨
        (∃ a b, e = Event.editCall (MsgText.progress a b)) ∨
        e = Event.logWarning ∨
        (∃ k, e = Event.createTemp k) ∨
        (∃ k, e = Event.synthesize k) := by
  intro cs
  induction cs with
  | nil => intro strt e h; simp [chunkLoop] at h
  | cons c rest ih =>
    intro strt e h
    have hpre : ∀ e', e' ∈ Event.chatAction ::
        ((if strt % 5 = 0 ∨ strt = total then
            safe_edit o.edit (MsgText.progress strt total) else [])
          ++ [Event.createTemp (strt - 1), Event.synthesize strt]) →
        e' = Event.chatAction ∨
          (∃ a b, e' = Event.editCall (MsgText.progress a b)) ∨
          e' = Event.logWarning ∨
          (∃ k, e' = Event.createTemp k) ∨
          (∃ k, e' = Event.synthesize k) := by
      intro e' h'
      rcases List.mem_cons.mp h' with h' | h'
      · exact Or.inl h'
      · rcases List.mem_append.mp h' with h' | h'
        · by_cases hcond : strt % 5 = 0 ∨ strt = total
          · rw [if_pos hcond] at h'
            rcases safe_edit_mem h' with h' | h'
            · exact Or.inr (Or.inl ⟨strt, total, h'⟩)
            · exact Or.inr (Or.inr (Or.inl h'))
          · rw [if_neg hcond] at h'
            simp at h'
        · rcases List.mem_cons.mp h' with h' | h'
          · exact Or.inr (Or.inr (Or.inr (Or.inl ⟨strt - 1, h'⟩)))
          · rw [List.mem_singleton] at h'
            exact Or.inr (Or.inr (Or.inr (Or.inr ⟨strt, h'⟩)))
    unfold chunkLoop at h
    by_cases hf : o.synthFails strt = true
    · rw [if_pos hf] at h
      exact hpre e h
    · rw [if_neg hf] at h
      simp only [] at h
      rcases List.mem_cons.mp h with h | h
      · exact Or.inl h
      · rcases List.mem_append.mp h with h | h
        · exact hpre e (List.mem_cons.mpr (Or.inr h))
        · exact ih (strt + 1) e h

/-- Normal form of the multi-chunk trace when no synthesis fails and
there is at least one chunk. -/
theorem convert_multiple_eq (o : MultiOracle) (chunks : List (List Char))
    (speed : ℚ) (hok : ∀ i, o.synthFails i = false) (hne : chunks ≠ []) :
    convert_multiple_chunks o chunks speed =
      Event.sendMessage (MsgText.initial chunks.length) ::
        (((chunkLoop o chunks.length 1 chunks).1
          ++ safe_edit o.edit MsgText.combining
          ++ (if speed ≠ 1 then
                safe_edit o.edit (MsgText.applyingSpeed speed) else [])
          ++ safe_edit o.edit MsgText.convertingFormat
          ++ [Event.createTemp chunks.length]
          ++ (if o.sizeMB > (TELEGRAM_MAX_AUDIO_SIZE_MB : ℚ) then
                safe_edit o.edit (MsgText.tooLarge o.sizeMB
                  (TELEGRAM_MAX_AUDIO_SIZE_MB : ℚ))
              else
                [Event.deleteMessage, Event.sendVoice]
                  ++ (if o.sendVoiceFails then
                        safe_edit o.edit MsgText.processingError else [])))
          ++ (List.range (chunks.length + 1)).map Event.removeTemp) := by
  have hl := chunkLoop_ok o chunks.length hok chunks 1
  have hne' : chunks.length ≠ 0 := by
    simpa using fun h => hne (List.length_eq_zero.mp h)
  unfold convert_multiple_chunks
  simp only []
  rw [hl.2, hl.1]
  rw [if_pos rfl]
  rw [if_neg hne']
  have htt : (if (true = true ∧ chunks.length ≠ 0) then chunks.length + 1
      else chunks.length) = chunks.length + 1 := if_pos ⟨rfl, hne'⟩
  rw [htt]

/-! ## Claim C4 -/

/-- C4, counterexample: the claim says an artifact measuring above the
50 MB ceiling is never sent, on every delivery path including the
single-chunk path.  But `_convert_single_chunk` performs no size
measurement and no ceiling check at all: a single-chunk job whose
artifact measures 60 MB is sent, and no too-large notice is ever
produced.  (`"hi"` routes to the single-chunk path through
`convert_text_to_speech`.) -/
theorem c4_counterexample :
    singleOversize.sizeMB > (TELEGRAM_MAX_AUDIO_SIZE_MB : ℚ) ∧
      Event.sendVoice ∈
        convert_text_to_speech oracleOk singleOversize ['h', 'i'] 1 ∧
      (convert_text_to_speech oracleOk singleOversize ['h', 'i'] 1).all
        (fun e => !isTooLargeEdit e) = true := by
  decide

/-- C4, amended: on the MULTI-chunk path (where the size guard lives),
for every oracle with no synthesis failure and a nonempty chunk list:
if the final artifact measures strictly above the 50 MB ceiling it is
never sent and the user is told both the measured size and the
configured limit; if it measures at or below the ceiling the voice
delivery is always attempted.  The single-chunk path performs no size
check and sends unconditionally. -/
theorem c4_amended (o : MultiOracle) (chunks : List (List Char))
    (speed : ℚ) (hok : ∀ i, o.synthFails i = false) (hne : chunks ≠ []) :
    (o.sizeMB > (TELEGRAM_MAX_AUDIO_SIZE_MB : ℚ) →
      Event.sendVoice ∉ convert_multiple_chunks o chunks speed ∧
        Event.editCall (MsgText.tooLarge o.sizeMB
            (TELEGRAM_MAX_AUDIO_SIZE_MB : ℚ))
          ∈ convert_multiple_chunks o chunks speed) ∧
    (¬ o.sizeMB > (TELEGRAM_MAX_AUDIO_SIZE_MB : ℚ) →
      Event.sendVoice ∈ convert_multiple_chunks o chunks speed) := by
  rw [convert_multiple_eq o chunks speed hok hne]
  constructor
  · intro hsz
    constructor
    · intro hmem
      rcases List.mem_cons.mp hmem with h | hmem
      · simp at h
      · rcases List.mem_append.mp hmem with hmem | h
        · rcases List.mem_append.mp hmem with hmem | h
          · rcases List.mem_append.mp hmem with hmem | h
            · rcases List.mem_append.mp hmem with hmem | h
              · rcases List.mem_append.mp hmem with hmem | h
                · rcases List.mem_append.mp hmem with hmem | h
                  · rcases chunkLoop_mem o chunks.length chunks 1
                      Event.sendVoice hmem with
                      h | ⟨a, b, h⟩ | h | ⟨k, h⟩ | ⟨k, h⟩ <;> simp at h
                  · rcases safe_edit_mem h with h | h <;> simp at h
                · by_cases hsp : speed ≠ 1
                  · rw [if_pos hsp] at h
                    rcases safe_edit_mem h with h | h <;> simp at h
                  · rw [if_neg hsp] at h
                    simp at h
              · rcases safe_edit_mem h with h | h <;> simp at h
            · simp at h
          · rw [if_pos hsz] at h
            rcases safe_edit_mem h with h | h <;> simp at h
        · simp at h
    · refine List.mem_cons.mpr (Or.inr ?_)
      refine List.mem_append.mpr (Or.inl ?_)
      refine List.mem_append.mpr (Or.inr ?_)
      rw [if_pos hsz]
      exact editCall_mem_safe_edit _ _
  · intro hsz
    refine List.mem_cons.mpr (Or.inr ?_)
    refine List.mem_append.mpr (Or.inl ?_)
    refine List.mem_append.mpr (Or.inr ?_)
    rw [if_neg hsz]
    exact List.mem_append.mpr (Or.inl (by simp))

/-- C4, witness: the amended theorem at 2 chunks, all synthesis
succeeding, artifact measuring 60 MB: no voice message is sent and the
too-large notice carries 60 and 50. -/
theorem c4_witness :
    Event.sendVoice ∉ convert_multiple_chunks oracleOversize [['a'], ['b']] 1 ∧
      Event.editCall (MsgText.tooLarge oracleOversize.sizeMB
          (TELEGRAM_MAX_AUDIO_SIZE_MB : ℚ))
        ∈ convert_multiple_chunks oracleOversize [['a'], ['b']] 1 :=
  (c4_amended oracleOversize [['a'], ['b']] 1 (fun _ => rfl)
    (by decide)).1 (by decide)

/-! ## Claim C5 -/

/-- Cadence of the per-chunk progress edits in the loop: the edit
reporting `i` of `total` appears exactly once when `i` indexes a
processed chunk and `i % 5 == 0 or i == total`, never otherwise. -/
theorem chunkLoop_count_progress (o : MultiOracle) (total : Nat)
    (hok : ∀ j, o.synthFails j = false) :
    ∀ (cs : List (List Char)) (strt i : Nat),
      countEvent (Event.editCall (MsgText.progress i total))
        (chunkLoop o total strt cs).1 =
      if strt ≤ i ∧ i < strt + cs.length ∧ (i % 5 = 0 ∨ i = total)
      then 1 else 0 := by
  intro cs
  induction cs with
  | nil =>
    intro strt i
    simp only [List.length_nil]
    rw [if_neg (by omega)]
    rfl
  | cons c rest ih =>
    intro strt i
    unfold chunkLoop
    rw [if_neg (by simp [hok strt])]
    simp only [List.length_cons, List.cons_append]
    rw [countEvent_cons, if_neg (by simp), List.append_assoc,
      countEvent_append, countEvent_append]
    have hX : countEvent (Event.editCall (MsgText.progress i total))
        (if strt % 5 = 0 ∨ strt = total then
          safe_edit o.edit (MsgText.progress strt total) else []) =
        if strt = i ∧ (strt % 5 = 0 ∨ strt = total) then 1 else 0 := by
      by_cases hcond : strt % 5 = 0 ∨ strt = total
      · rw [if_pos hcond, countEvent_safe_edit_editCall]
        by_cases hi : strt = i
        · rw [if_pos (by rw [hi]), if_pos ⟨hi, hcond⟩]
        · rw [if_neg (by simp [hi]), if_neg (by tauto)]
      · rw [if_neg hcond, if_neg (by tauto)]
        rfl
    have hct : countEvent (Event.editCall (MsgText.progress i total))
        [Event.createTemp (strt - 1), Event.synthesize strt] = 0 :=
      countEvent_eq_zero (by simp)
    rw [hX, hct, ih (strt + 1) i]
    split_ifs <;> omega

/-- The progress edit for chunk `i` is emitted, and it is emitted
before chunk `i`'s synthesis attempt. -/
theorem chunkLoop_sublist_progress (o : MultiOracle) (total : Nat)
    (hok : ∀ j, o.synthFails j = false) :
    ∀ (cs : List (List Char)) (strt i : Nat),
      strt ≤ i → i < strt + cs.length → (i % 5 = 0 ∨ i = total) →
      [Event.editCall (MsgText.progress i total),
        Event.synthesize i].Sublist (chunkLoop o total strt cs).1 := by
  intro cs
  induction cs with
  | nil =>
    intro strt i h1 h2 _
    simp only [List.length_nil] at h2
    omega
  | cons c rest ih =>
    intro strt i h1 h2 hcond
    unfold chunkLoop
    rw [if_neg (by simp [hok strt])]
    simp only []
    by_cases hi : i = strt
    · subst hi
      have hblock : [Event.editCall (MsgText.progress i total),
          Event.synthesize i].Sublist
          (Event.chatAction ::
            ((if i % 5 = 0 ∨ i = total then
                safe_edit o.edit (MsgText.progress i total) else [])
              ++ [Event.createTemp (i - 1), Event.synthesize i])) := by
        rw [if_pos hcond]
        unfold safe_edit
        rw [List.cons_append]
        refine List.Sublist.cons _ ?_
        refine List.Sublist.cons₂ _ ?_
        refine List.Sublist.trans ?_ (List.sublist_append_right _ _)
        exact List.Sublist.cons _ (List.Sublist.refl _)
      exact hblock.trans (List.sublist_append_left _ _)
    · have h2' : i < (strt + 1) + rest.length := by
        simp only [List.length_cons] at h2
        omega
      have hsub := ih (strt + 1) i (by omega) h2' hcond
      exact hsub.trans (List.sublist_append_right _ _)

/-- C5, counterexample: in a 3-chunk job the single per-chunk update
(reporting 3 of 3) is present, but it is NOT emitted after chunk 3's
synthesis: the loop in `_convert_multiple_chunks` edits the progress
message at the top of iteration `i`, before `gTTS(...).save` runs for
chunk `i`, so no trace order places synthesis 3 before the update. -/
theorem c5_counterexample :
    Event.editCall (MsgText.progress 3 3) ∈
        convert_multiple_chunks oracleOk [['a'], ['b'], ['c']] 1 ∧
      Event.synthesize 3 ∈
        convert_multiple_chunks oracleOk [['a'], ['b'], ['c']] 1 ∧
      ¬ [Event.synthesize 3, Event.editCall (MsgText.progress 3 3)].Sublist
          (convert_multiple_chunks oracleOk [['a'], ['b'], ['c']] 1) := by
  decide

/-- C5, amended: in a multi-chunk job with N chunks (no synthesis
failure), an update reporting `i` of N is emitted exactly once if and
only if `i` is a multiple of 5 or `i = N` (so a 3-chunk job emits one
update and a 12-chunk job emits updates for 5, 10, 12), but each such
update is emitted BEFORE chunk `i`'s synthesis (right after chunk
`i - 1` completes), not after chunk `i`'s synthesis has completed. -/
theorem c5_amended (o : MultiOracle) (chunks : List (List Char))
    (speed : ℚ) (hok : ∀ j, o.synthFails j = false) (hne : chunks ≠ []) :
    (∀ i, countEvent (Event.editCall (MsgText.progress i chunks.length))
        (convert_multiple_chunks o chunks speed) =
      if 1 ≤ i ∧ i ≤ chunks.length ∧ (i % 5 = 0 ∨ i = chunks.length)
      then 1 else 0) ∧
    (∀ i, 1 ≤ i → i ≤ chunks.length → (i % 5 = 0 ∨ i = chunks.length) →
      [Event.editCall (MsgText.progress i chunks.length),
        Event.synthesize i].Sublist
        (convert_multiple_chunks o chunks speed)) := by
  rw [convert_multiple_eq o chunks speed hok hne]
  constructor
  · intro i
    rw [countEvent_cons, if_neg (by simp), countEvent_append,
      countEvent_append, countEvent_append, countEvent_append,
      countEvent_append, countEvent_append]
    have hA : countEvent (Event.editCall (MsgText.progress i chunks.length))
        (safe_edit o.edit MsgText.combining) = 0 := by
      rw [countEvent_safe_edit_editCall, if_neg (by simp)]
    have hB : countEvent (Event.editCall (MsgText.progress i chunks.length))
        (if speed ≠ 1 then
          safe_edit o.edit (MsgText.applyingSpeed speed) else []) = 0 := by
      by_cases hsp : speed ≠ 1
      · rw [if_pos hsp, countEvent_safe_edit_editCall, if_neg (by simp)]
      · rw [if_neg hsp]; rfl
    have hC : countEvent (Event.editCall (MsgText.progress i chunks.length))
        (safe_edit o.edit MsgText.convertingFormat) = 0 := by
      rw [countEvent_safe_edit_editCall, if_neg (by simp)]
    have hct : countEvent (Event.editCall (MsgText.progress i chunks.length))
        [Event.createTemp chunks.length] = 0 :=
      countEvent_eq_zero (by simp)
    have hD : countEvent (Event.editCall (MsgText.progress i chunks.length))
        (if o.sizeMB > (TELEGRAM_MAX_AUDIO_SIZE_MB : ℚ) then
          safe_edit o.edit (MsgText.tooLarge o.sizeMB
            (TELEGRAM_MAX_AUDIO_SIZE_MB : ℚ))
        else [Event.deleteMessage, Event.sendVoice]
          ++ (if o.sendVoiceFails then
                safe_edit o.edit MsgText.processingError else [])) = 0 := by
      by_cases hsz : o.sizeMB > (TELEGRAM_MAX_AUDIO_SIZE_MB : ℚ)
      · rw [if_pos hsz, countEvent_safe_edit_editCall, if_neg (by simp)]
      · rw [if_neg hsz, countEvent_append,
          countEvent_eq_zero (e := Event.editCall
            (MsgText.progress i chunks.length)) (by simp)]
        by_cases hsv : o.sendVoiceFails
        · rw [if_pos hsv, countEvent_safe_edit_editCall, if_neg (by simp)]
        · rw [if_neg hsv]; rfl
    have hclean : countEvent (Event.editCall (MsgText.progress i chunks.length))
        ((List.range (chunks.length + 1)).map Event.removeTemp) = 0 :=
      countEvent_eq_zero (by simp)
    rw [hA, hB, hC, hct, hD, hclean,
      chunkLoop_count_progress o chunks.length hok chunks 1 i]
    split_ifs <;> omega
  · intro i hi1 hi2 hcond
    have hsub := chunkLoop_sublist_progress o chunks.length hok chunks 1 i
      hi1 (by omega) hcond
    refine hsub.trans (List.Sublist.cons _ ?_)
    refine List.Sublist.trans ?_ (List.sublist_append_left _ _)
    refine List.Sublist.trans ?_ (List.sublist_append_left _ _)
    refine List.Sublist.trans ?_ (List.sublist_append_left _ _)
    refine List.Sublist.trans ?_ (List.sublist_append_left _ _)
    refine List.Sublist.trans ?_ (List.sublist_append_left _ _)
    exact List.sublist_append_left _ _

/-- C5, witness: the amended theorem at a 3-chunk job — exactly one
update (reporting 3 of 3), emitted before chunk 3's synthesis. -/
theorem c5_witness :
    countEvent (Event.editCall (MsgText.progress 3 3))
        (convert_multiple_chunks oracleOk [['a'], ['b'], ['c']] 1) = 1 ∧
      [Event.editCall (MsgText.progress 3 3), Event.synthesize 3].Sublist
        (convert_multiple_chunks oracleOk [['a'], ['b'], ['c']] 1) := by
  have h := c5_amended oracleOk [['a'], ['b'], ['c']] 1 (fun _ => rfl)
    (by decide)
  exact ⟨(h.1 3).trans (if_pos (by decide)),
    h.2 3 (by decide) (by decide) (by decide)⟩

/-! ## Claim C9 -/

theorem createdIds_append (a b : List Event) :
    createdIds (a ++ b) = createdIds a ++ createdIds b :=
  List.filterMap_append a b _

theorem removedIds_append (a b : List Event) :
    removedIds (a ++ b) = removedIds a ++ removedIds b :=
  List.filterMap_append a b _

theorem createdIds_cons_createTemp (i : Nat) (tr : List Event) :
    createdIds (Event.createTemp i :: tr) = i :: createdIds tr := by
  simp [createdIds, List.filterMap_cons]

theorem createdIds_cons_other {e : Event}
    (h : ∀ i, e ≠ Event.createTemp i) (tr : List Event) :
    createdIds (e :: tr) = createdIds tr := by
  unfold createdIds
  rw [List.filterMap_cons]
  cases e <;> first
    | rfl
    | exact absurd rfl (h _)

theorem removedIds_cons_removeTemp (i : Nat) (tr : List Event) :
    removedIds (Event.removeTemp i :: tr) = i :: removedIds tr := by
  simp [removedIds, List.filterMap_cons]

theorem removedIds_cons_other {e : Event}
    (h : ∀ i, e ≠ Event.removeTemp i) (tr : List Event) :
    removedIds (e :: tr) = removedIds tr := by
  unfold removedIds
  rw [List.filterMap_cons]
  cases e <;> first
    | rfl
    | exact absurd rfl (h _)

theorem createdIds_safe_edit (ed : MsgText → EditOutcome) (t : MsgText) :
    createdIds (safe_edit ed t) = [] := by
  unfold safe_edit createdIds
  cases ed t <;> rfl

theorem removedIds_safe_edit (ed : MsgText → EditOutcome) (t : MsgText) :
    removedIds (safe_edit ed t) = [] := by
  unfold safe_edit removedIds
  cases ed t <;> rfl

theorem removedIds_map_removeTemp (l : List Nat) :
    removedIds (l.map Event.removeTemp) = l := by
  induction l with
  | nil => rfl
  | cons a l ih => simpa [removedIds_cons_removeTemp] using ih

theorem createdIds_map_removeTemp (l : List Nat) :
    createdIds (l.map Event.removeTemp) = [] := by
  induction l with
  | nil => rfl
  | cons a l ih =>
    rw [List.map_cons,
      createdIds_cons_other (e := Event.removeTemp a) (by simp)]
    exact ih

theorem removedIds_nil : removedIds [] = [] := rfl

theorem createdIds_nil : createdIds [] = [] := rfl

theorem removedIds_cons_send (t : MsgText) (tr : List Event) :
    removedIds (Event.sendMessage t :: tr) = removedIds tr := rfl

theorem removedIds_cons_edit (t : MsgText) (tr : List Event) :
    removedIds (Event.editCall t :: tr) = removedIds tr := rfl

theorem removedIds_cons_log (tr : List Event) :
    removedIds (Event.logWarning :: tr) = removedIds tr := rfl

theorem removedIds_cons_chat (tr : List Event) :
    removedIds (Event.chatAction :: tr) = removedIds tr := rfl

theorem removedIds_cons_create (i : Nat) (tr : List Event) :
    removedIds (Event.createTemp i :: tr) = removedIds tr := rfl

theorem removedIds_cons_synth (i : Nat) (tr : List Event) :
    removedIds (Event.synthesize i :: tr) = removedIds tr := rfl

theorem removedIds_cons_delete (tr : List Event) :
    removedIds (Event.deleteMessage :: tr) = removedIds tr := rfl

theorem removedIds_cons_voice (tr : List Event) :
    removedIds (Event.sendVoice :: tr) = removedIds tr := rfl

theorem createdIds_cons_send (t : MsgText) (tr : List Event) :
    createdIds (Event.sendMessage t :: tr) = createdIds tr := rfl

theorem createdIds_cons_edit (t : MsgText) (tr : List Event) :
    createdIds (Event.editCall t :: tr) = createdIds tr := rfl

theorem createdIds_cons_log (tr : List Event) :
    createdIds (Event.logWarning :: tr) = createdIds tr := rfl

theorem createdIds_cons_chat (tr : List Event) :
    createdIds (Event.chatAction :: tr) = createdIds tr := rfl

theorem createdIds_cons_remove (i : Nat) (tr : List Event) :
    createdIds (Event.removeTemp i :: tr) = createdIds tr := rfl

theorem createdIds_cons_synth (i : Nat) (tr : List Event) :
    createdIds (Event.synthesize i :: tr) = createdIds tr := rfl

theorem createdIds_cons_delete (tr : List Event) :
    createdIds (Event.deleteMessage :: tr) = createdIds tr := rfl

theorem createdIds_cons_voice (tr : List Event) :
    createdIds (Event.sendVoice :: tr) = createdIds tr := rfl

/-- The loop creates exactly the temp ids `strt-1, strt, …` — one per
chunk processed — on every oracle behaviour, including a synthesis
failure part way through. -/
theorem chunkLoop_createdIds (o : MultiOracle) (total : Nat) :
    ∀ (cs : List (List Char)) (strt : Nat), 1 ≤ strt →
      createdIds (chunkLoop o total strt cs).1 =
        List.range' (strt - 1) (chunkLoop o total strt cs).2.1 := by
  intro cs
  induction cs with
  | nil => intro strt _; rfl
  | cons c rest ih =>
    intro strt hstrt
    have hsucc : strt - 1 + 1 = strt := by omega
    have hpre : createdIds (Event.chatAction ::
        ((if strt % 5 = 0 ∨ strt = total then
            safe_edit o.edit (MsgText.progress strt total) else [])
          ++ [Event.createTemp (strt - 1), Event.synthesize strt])) =
        [strt - 1] := by
      rw [createdIds_cons_other (by simp), createdIds_append]
      have hX : createdIds (if strt % 5 = 0 ∨ strt = total then
          safe_edit o.edit (MsgText.progress strt total) else []) = [] := by
        by_cases hcond : strt % 5 = 0 ∨ strt = total
        · rw [if_pos hcond, createdIds_safe_edit]
        · rw [if_neg hcond]; rfl
      rw [hX, createdIds_cons_createTemp,
        createdIds_cons_other (by simp)]
      rfl
    unfold chunkLoop
    by_cases hf : o.synthFails strt = true
    · rw [if_pos hf]
      simp only []
      rw [hpre]
      rw [List.range'_one]
    · rw [if_neg hf]
      simp only []
      rw [createdIds_append, hpre, ih (strt + 1) (by omega)]
      rw [List.range'_succ]
      simp [hsucc]

/-- The loop removes nothing: all temp-file removal happens in the
`finally` block. -/
theorem chunkLoop_removedIds (o : MultiOracle) (total : Nat) :
    ∀ (cs : List (List Char)) (strt : Nat),
      removedIds (chunkLoop o total strt cs).1 = [] := by
  intro cs
  induction cs with
  | nil => intro strt; rfl
  | cons c rest ih =>
    intro strt
    have hpre : removedIds (Event.chatAction ::
        ((if strt % 5 = 0 ∨ strt = total then
            safe_edit o.edit (MsgText.progress strt total) else [])
          ++ [Event.createTemp (strt - 1), Event.synthesize strt])) = [] := by
      rw [removedIds_cons_other (by simp), removedIds_append]
      have hX : removedIds (if strt % 5 = 0 ∨ strt = total then
          safe_edit o.edit (MsgText.progress strt total) else []) = [] := by
        by_cases hcond : strt % 5 = 0 ∨ strt = total
        · rw [if_pos hcond, removedIds_safe_edit]
        · rw [if_neg hcond]; rfl
      rw [hX, removedIds_cons_other (by simp),
        removedIds_cons_other (by simp)]
      rfl
    unfold chunkLoop
    by_cases hf : o.synthFails strt = true
    · rw [if_pos hf]
      simp only []
      exact hpre
    · rw [if_neg hf]
      simp only []
      rw [removedIds_append, hpre, ih (strt + 1)]
      rfl

theorem nodup_range'_concat (n : Nat) :
    (List.range' 0 n ++ [n]).Nodup := by
  have h : List.range' 0 n ++ [n] = List.range' 0 (n + 1) := by
    rw [List.range'_concat]
    simp
  rw [h]
  exact List.nodup_range' _ _

/-- C9, confirmed: on every modelled exit path of a conversion job —
successful delivery, size-ceiling rejection, synthesis failure at any
chunk, delivery failure, and the empty-chunk-list internal error — the
`finally` blocks remove exactly the temp files created during the job,
each exactly once, in creation order; no temp file survives the job. -/
theorem c9_theorem :
    (∀ (o : MultiOracle) (chunks : List (List Char)) (speed : ℚ),
      removedIds (convert_multiple_chunks o chunks speed) =
          createdIds (convert_multiple_chunks o chunks speed) ∧
        (createdIds (convert_multiple_chunks o chunks speed)).Nodup) ∧
    (∀ (so : SingleOracle) (text : List Char) (speed : ℚ),
      removedIds (convert_single_chunk so text speed) =
          createdIds (convert_single_chunk so text speed) ∧
        (createdIds (convert_single_chunk so text speed)).Nodup) := by
  constructor
  · intro o chunks speed
    have hc := chunkLoop_createdIds o chunks.length chunks 1 (by omega)
    have hr := chunkLoop_removedIds o chunks.length chunks 1
    unfold convert_multiple_chunks
    simp only []
    by_cases hok : (chunkLoop o chunks.length 1 chunks).2.2 = true
    · rw [if_pos hok]
      by_cases hz : (chunkLoop o chunks.length 1 chunks).2.1 = 0
      · rw [if_pos hz, if_neg (by simp [hz])]
        constructor
        · simp [removedIds_append, createdIds_append,
            removedIds_safe_edit, createdIds_safe_edit,
            removedIds_map_removeTemp, createdIds_map_removeTemp,
            removedIds_cons_send, createdIds_cons_send,
            removedIds_nil, createdIds_nil, hr, hc, hz]
        · simp [createdIds_cons_send, createdIds_append,
            createdIds_safe_edit, createdIds_map_removeTemp,
            createdIds_nil, hc, hz]
      · rw [if_neg hz]
        have htt : (if ((chunkLoop o chunks.length 1 chunks).2.2 = true ∧
            (chunkLoop o chunks.length 1 chunks).2.1 ≠ 0) then
              (chunkLoop o chunks.length 1 chunks).2.1 + 1
            else (chunkLoop o chunks.length 1 chunks).2.1) =
            (chunkLoop o chunks.length 1 chunks).2.1 + 1 := if_pos ⟨hok, hz⟩
        rw [htt]
        by_cases hsp : speed ≠ 1
        · rw [if_pos hsp]
          by_cases hsz : o.sizeMB > (TELEGRAM_MAX_AUDIO_SIZE_MB : ℚ)
          · rw [if_pos hsz]
            constructor
            · simp [removedIds_append, createdIds_append,
                removedIds_safe_edit, createdIds_safe_edit,
                removedIds_map_removeTemp, createdIds_map_removeTemp,
                removedIds_cons_send, createdIds_cons_send,
                removedIds_cons_create, createdIds_cons_createTemp,
                removedIds_cons_delete, createdIds_cons_delete,
                removedIds_cons_voice, createdIds_cons_voice,
                removedIds_cons_removeTemp, createdIds_cons_remove,
                removedIds_nil, createdIds_nil, hr, hc,
                List.range_eq_range', List.range'_concat]
            · simp only [createdIds_cons_send, createdIds_append,
                createdIds_safe_edit, createdIds_cons_createTemp,
                createdIds_cons_delete, createdIds_cons_voice,
                createdIds_map_removeTemp, createdIds_nil, hc]
              simpa using nodup_range'_concat
                ((chunkLoop o chunks.length 1 chunks).2.1)
          · rw [if_neg hsz]
            by_cases hsv : o.sendVoiceFails = true
            · rw [if_pos hsv]
              constructor
              · simp [removedIds_append, createdIds_append,
                  removedIds_safe_edit, createdIds_safe_edit,
                  removedIds_map_removeTemp, createdIds_map_removeTemp,
                  removedIds_cons_send, createdIds_cons_send,
                  removedIds_cons_create, createdIds_cons_createTemp,
                  removedIds_cons_delete, createdIds_cons_delete,
                  removedIds_cons_voice, createdIds_cons_voice,
                removedIds_cons_removeTemp, createdIds_cons_remove,
                  removedIds_nil, createdIds_nil, hr, hc,
                  List.range_eq_range', List.range'_concat]
              · simp only [createdIds_cons_send, createdIds_append,
                  createdIds_safe_edit, createdIds_cons_createTemp,
                  createdIds_cons_delete, createdIds_cons_voice,
                  createdIds_map_removeTemp, createdIds_nil, hc]
                simpa using nodup_range'_concat
                  ((chunkLoop o chunks.length 1 chunks).2.1)
            · rw [if_neg hsv]
              constructor
              · simp [removedIds_append, createdIds_append,
                  removedIds_safe_edit, createdIds_safe_edit,
                  removedIds_map_removeTemp, createdIds_map_removeTemp,
                  removedIds_cons_send, createdIds_cons_send,
                  removedIds_cons_create, createdIds_cons_createTemp,
                  removedIds_cons_delete, createdIds_cons_delete,
                  removedIds_cons_voice, createdIds_cons_voice,
                removedIds_cons_removeTemp, createdIds_cons_remove,
                  removedIds_nil, createdIds_nil, hr, hc,
                  List.range_eq_range', List.range'_concat]
              · simp only [createdIds_cons_send, createdIds_append,
                  createdIds_safe_edit, createdIds_cons_createTemp,
                  createdIds_cons_delete, createdIds_cons_voice,
                  createdIds_map_removeTemp, createdIds_nil, hc]
                simpa using nodup_range'_concat
                  ((chunkLoop o chunks.length 1 chunks).2.1)
        · rw [if_neg hsp]
          by_cases hsz : o.sizeMB > (TELEGRAM_MAX_AUDIO_SIZE_MB : ℚ)
          · rw [if_pos hsz]
            constructor
            · simp [removedIds_append, createdIds_append,
                removedIds_safe_edit, createdIds_safe_edit,
                removedIds_map_removeTemp, createdIds_map_removeTemp,
                removedIds_cons_send, createdIds_cons_send,
                removedIds_cons_create, createdIds_cons_createTemp,
                removedIds_cons_delete, createdIds_cons_delete,
                removedIds_cons_voice, createdIds_cons_voice,
                removedIds_cons_removeTemp, createdIds_cons_remove,
                removedIds_nil, createdIds_nil, hr, hc,
                List.range_eq_range', List.range'_concat]
            · simp only [createdIds_cons_send, createdIds_append,
                createdIds_safe_edit, createdIds_cons_createTemp,
                createdIds_cons_delete, createdIds_cons_voice,
                createdIds_map_removeTemp, createdIds_nil, hc]
              simpa using nodup_range'_concat
                ((chunkLoop o chunks.length 1 chunks).2.1)
          · rw [if_neg hsz]
            by_cases hsv : o.sendVoiceFails = true
            · rw [if_pos hsv]
              constructor
              · simp [removedIds_append, createdIds_append,
                  removedIds_safe_edit, createdIds_safe_edit,
                  removedIds_map_removeTemp, createdIds_map_removeTemp,
                  removedIds_cons_send, createdIds_cons_send,
                  removedIds_cons_create, createdIds_cons_createTemp,
                  removedIds_cons_delete, createdIds_cons_delete,
                  removedIds_cons_voice, createdIds_cons_voice,
                removedIds_cons_removeTemp, createdIds_cons_remove,
                  removedIds_nil, createdIds_nil, hr, hc,
                  List.range_eq_range', List.range'_concat]
              · simp only [createdIds_cons_send, createdIds_append,
                  createdIds_safe_edit, createdIds_cons_createTemp,
                  createdIds_cons_delete, createdIds_cons_voice,
                  createdIds_map_removeTemp, createdIds_nil, hc]
                simpa using nodup_range'_concat
                  ((chunkLoop o chunks.length 1 chunks).2.1)
            · rw [if_neg hsv]
              constructor
              · simp [removedIds_append, createdIds_append,
                  removedIds_safe_edit, createdIds_safe_edit,
                  removedIds_map_removeTemp, createdIds_map_removeTemp,
                  removedIds_cons_send, createdIds_cons_send,
                  removedIds_cons_create, createdIds_cons_createTemp,
                  removedIds_cons_delete, createdIds_cons_delete,
                  removedIds_cons_voice, createdIds_cons_voice,
                removedIds_cons_removeTemp, createdIds_cons_remove,
                  removedIds_nil, createdIds_nil, hr, hc,
                  List.range_eq_range', List.range'_concat]
              · simp only [createdIds_cons_send, createdIds_append,
                  createdIds_safe_edit, createdIds_cons_createTemp,
                  createdIds_cons_delete, createdIds_cons_voice,
                  createdIds_map_removeTemp, createdIds_nil, hc]
                simpa using nodup_range'_concat
                  ((chunkLoop o chunks.length 1 chunks).2.1)
    · rw [if_neg hok, if_neg (by simp [hok])]
      constructor
      · simp [removedIds_append, createdIds_append,
          removedIds_safe_edit, createdIds_safe_edit,
          removedIds_map_removeTemp, createdIds_map_removeTemp,
          removedIds_cons_send, createdIds_cons_send,
          removedIds_nil, createdIds_nil, hr, hc,
          List.range_eq_range']
      · simp only [createdIds_cons_send, createdIds_append,
          createdIds_safe_edit, createdIds_map_removeTemp,
          createdIds_nil, hc]
        first
          | exact List.nodup_range' _ _
          | (simp only [List.append_nil, List.nil_append]
             exact List.nodup_range' _ _)
  · intro so text speed
    unfold convert_single_chunk
    by_cases hsf : so.synthFails = true
    · rw [if_pos hsf]
      exact ⟨rfl, by decide⟩
    · rw [if_neg hsf]
      exact ⟨rfl, by decide⟩

end TTSBot
